import Mathlib

/-
Verification of the hibp-checker core (internal/hibp/checker.go).

Strings are modelled as lists of characters.  Go maps that are only ever
read, appended to, and counted are modelled as functions (hash index) or
as duplicate-free lists in insertion order (exposure set).  The effects of
the underlying output writer are modelled by an oracle giving the
success/failure of each physical write, indexed by the number of write
attempts made so far.  Concurrency: the Go code holds a single mutex
around every check-and-set on the exposure set, so every concurrent
execution is equivalent to some sequential interleaving of per-line
operations; the engine is therefore modelled as a fold over an arbitrary
list of (prefix, response line) operations.
-/

namespace HibpChecker

abbrev Str := List Char

/-- ASCII whitespace recognized by Go unicode.IsSpace (space, TAB, LF, VT, FF, CR). -/
def isSpaceChar (c : Char) : Bool :=
  c.toNat = 32 || c.toNat = 9 || c.toNat = 10 || c.toNat = 13 || c.toNat = 11 || c.toNat = 12

/-- Go strings.TrimSpace: drop whitespace from both ends. -/
def trim (s : Str) : Str :=
  ((s.dropWhile isSpaceChar).reverse.dropWhile isSpaceChar).reverse

/-- ASCII uppercase of one character, as Go strings.ToUpper acts on the hex
and ASCII data this tool handles. -/
def upChar (c : Char) : Char :=
  if 97 ≤ c.toNat ∧ c.toNat ≤ 122 then Char.ofNat (c.toNat - 32) else c

/-- Go strings.ToUpper on a string. -/
def toUpper (s : Str) : Str := s.map upChar

/-- Leftmost occurrence of a nonempty separator: returns the part before it
and the part after it. -/
def splitFirst (sep : Str) : Str → Option (Str × Str)
  | [] => none
  | c :: rest =>
    if sep.isPrefixOf (c :: rest) then some ([], (c :: rest).drop sep.length)
    else
      match splitFirst sep rest with
      | some (pre, post) => some (c :: pre, post)
      | none => none

/-- Go strings.SplitN(s, sep, 2): at most two parts, split at the first
occurrence of sep; with an empty separator Go explodes the first rune. -/
def goSplitN2 (sep s : Str) : List Str :=
  if sep = [] then
    match s with
    | [] => []
    | [c] => [[c]]
    | c :: rest => [[c], rest]
  else
    match splitFirst sep s with
    | some (pre, post) => [pre, post]
    | none => [s]

/-- Go strings.Split(s, newline): every line, including a trailing empty one. -/
def splitLines : Str → List Str
  | [] => [[]]
  | c :: rest =>
    if c = '\n' then [] :: splitLines rest
    else
      match splitLines rest with
      | l :: ls => (c :: l) :: ls
      | [] => [[c]]

/-- A record of the credential export: User struct of checker.go. -/
structure User where
  account : Str
  hash : Str
deriving DecidableEq, Repr

/-- The index built by buildHashIndex: the userHashes map (hash to accounts),
the seen set of prefixes, and the prefixes slice in insertion order. -/
structure IndexState where
  userHashes : Str → List Str
  seen : Str → Bool
  prefixes : List Str

def emptyIndex : IndexState :=
  { userHashes := fun _ => [], seen := fun _ => false, prefixes := [] }

/-- One iteration of the loop body of buildHashIndex. -/
def buildStep (st : IndexState) (u : User) : IndexState :=
  if ['$'].isSuffixOf u.account || trim u.hash == [] then st
  else
    let hash := toUpper u.hash
    if hash.length < 5 then st
    else
      let uh := fun h => if h = hash then st.userHashes h ++ [u.account] else st.userHashes h
      let pfx := hash.take 5
      if st.seen pfx then { userHashes := uh, seen := st.seen, prefixes := st.prefixes }
      else { userHashes := uh
             seen := fun p => if p = pfx then true else st.seen p
             prefixes := st.prefixes ++ [pfx] }

/-- buildHashIndex of checker.go: fold the loop body over the loaded users. -/
def buildHashIndex (users : List User) : IndexState :=
  users.foldl buildStep emptyIndex

/-- The exclusion condition of buildHashIndex, as one predicate. -/
def isExcluded (u : User) : Bool :=
  ['$'].isSuffixOf u.account || trim u.hash == [] || (toUpper u.hash).length < 5

/-- ResultWriter of checker.go.  The destination writer is abstracted to
the enabled flag (writer non-nil); written records the lines successfully
written; attempts counts physical write attempts and indexes the oracle. -/
structure ResultWriter where
  enabled : Bool
  count : Nat
  attempts : Nat
  written : List Str
deriving DecidableEq, Repr

/-- NewResultWriter: enabled iff a destination writer was supplied. -/
def NewResultWriter (hasWriter : Bool) : ResultWriter :=
  { enabled := hasWriter, count := 0, attempts := 0, written := [] }

/-- ResultWriter.Write: nil error immediately when disabled; otherwise one
physical write whose success is given by the oracle at the current attempt
index, incrementing count only on success.  The returned Bool is true for
a nil error. -/
def ResultWriter.write (oracle : Nat → Bool) (rw : ResultWriter) (a : Str) :
    ResultWriter × Bool :=
  if rw.enabled then
    let ok := oracle rw.attempts
    ({ enabled := rw.enabled
       count := if ok then rw.count + 1 else rw.count
       attempts := rw.attempts + 1
       written := if ok then rw.written ++ [a] else rw.written }, ok)
  else (rw, true)

/-- ResultWriter.Count. -/
def ResultWriter.Count (rw : ResultWriter) : Nat := rw.count

/-- A sequence of Write calls, returning the final writer and the list of
success flags of each call. -/
def writeAll (oracle : Nat → Bool) (rw : ResultWriter) : List Str → ResultWriter × List Bool
  | [] => (rw, [])
  | a :: rest =>
    let r := ResultWriter.write oracle rw a
    let t := writeAll oracle r.1 rest
    (t.1, r.2 :: t.2)

/-- The mutable engine state during querying: the exposedUsers set (keys in
insertion order; membership test is the map lookup), the findings emitted
(console notification plus sink Write, appended at the moment of marking),
and the result sink. -/
structure EngineState where
  exposed : List Str
  findings : List Str
  sink : ResultWriter
deriving DecidableEq, Repr

def initEngine (rw : ResultWriter) : EngineState :=
  { exposed := [], findings := [], sink := rw }

/-- The locked region of checkPrefixMatches: for every account of a hit,
check membership in exposedUsers and on a miss mark it exposed and emit a
Finding (console plus sink write); the write result is only reported. -/
def markAccounts (oracle : Nat → Bool) (accounts : List Str) (st : EngineState) : EngineState :=
  accounts.foldl
    (fun s a =>
      if s.exposed.contains a then s
      else
        { exposed := s.exposed ++ [a]
          findings := s.findings ++ [a]
          sink := (ResultWriter.write oracle s.sink a).1 }) st

/-- One response line of checkPrefixMatches: trim, skip blank, split on the
first colon, skip malformed lines, rebuild the full hash, and on an index
hit mark the associated accounts. -/
def processLine (oracle : Nat → Bool) (idx : Str → List Str) (pfx line : Str)
    (st : EngineState) : EngineState :=
  let t := trim line
  if t = [] then st
  else
    match goSplitN2 [':'] t with
    | [sfx, _] =>
      let fullHash := pfx ++ toUpper sfx
      let accounts := idx fullHash
      if accounts.isEmpty then st else markAccounts oracle accounts st
    | _ => st

/-- checkPrefixMatches of checker.go: a failed query is reported and the
prefix abandoned with no state change; a successful response is processed
line by line. -/
def checkPrefixMatches (oracle : Nat → Bool) (idx : Str → List Str) (pfx : Str)
    (resp : Except String Str) (st : EngineState) : EngineState :=
  match resp with
  | .error _ => st
  | .ok body => (splitLines body).foldl (fun s l => processLine oracle idx pfx l s) st

/-- A run of the engine over a sequence of (prefix, response line)
operations, the atomic units protected by the checker mutex; any
concurrent interleaving of workers is one such sequence. -/
def runOps (oracle : Nat → Bool) (idx : Str → List Str) (ops : List (Str × Str))
    (st : EngineState) : EngineState :=
  ops.foldl (fun s op => processLine oracle idx op.1 op.2 s) st

/-- The scan loop of loadUsers: trim, skip blank lines, consume the header
skip on the first non-blank line, skip malformed lines, and stop once the
limit is reached. -/
def loadLoop (delim : Str) (skipHeader : Bool) (limit : Int) :
    List Str → Bool → List User → List User
  | [], _, acc => acc
  | l :: rest, firstLine, acc =>
    let line := trim l
    if line = [] then loadLoop delim skipHeader limit rest firstLine acc
    else if firstLine && skipHeader then loadLoop delim skipHeader limit rest false acc
    else
      match goSplitN2 delim line with
      | [a, h] =>
        let acc2 := acc ++ [⟨a, h⟩]
        if limit > 0 ∧ (acc2.length : Int) ≥ limit then acc2
        else loadLoop delim skipHeader limit rest false acc2
      | _ => loadLoop delim skipHeader limit rest false acc

/-- loadUsers of checker.go.  The file system is abstracted to either an
open/read failure or the list of scanned lines. -/
def loadUsers (source : Except String (List Str)) (delim : Str) (skipHeader : Bool)
    (limit : Int) : Except String (List User) :=
  match source with
  | .error e => .error e
  | .ok lines => .ok (loadLoop delim skipHeader limit lines true [])

/-- CheckFile of checker.go: load, index, query every prefix once (the
per-prefix query outcome is given by responses), and return the size of
the exposure set.  The worker count does not affect the sequentialized
semantics. -/
def CheckFile (oracle : Nat → Bool) (source : Except String (List Str)) (delim : Str)
    (skipHeader : Bool) (workers : Nat) (limit : Int)
    (responses : Str → Except String Str) (rw : ResultWriter) :
    Except String (Nat × EngineState) :=
  match loadUsers source delim skipHeader limit with
  | .error e => .error e
  | .ok users =>
    let bi := buildHashIndex users
    let final := bi.prefixes.foldl
      (fun st p => checkPrefixMatches oracle bi.userHashes p (responses p) st)
      (initEngine rw)
    .ok (final.exposed.length, final)

/-- Spec-side view of one response line (specification wording of the
Matching Engine, for the refinement theorem): blank after trimming gives
nothing, a line without exactly two parts gives nothing, otherwise the
suffix. -/
def parseRespLine (l : Str) : Option Str :=
  let t := trim l
  if t = [] then none
  else
    match goSplitN2 [':'] t with
    | [sfx, _] => some sfx
    | _ => none

/-- Spec-side view of a raw response: the suffixes of its well-formed lines. -/
def respSuffixes (body : Str) : List Str :=
  (splitLines body).filterMap parseRespLine

/-- Spec-side view of one record line of the Credential Loader. -/
def parseRecordLine (delim : Str) (l : Str) : Option User :=
  let t := trim l
  if t = [] then none
  else
    match goSplitN2 delim t with
    | [a, h] => some ⟨a, h⟩
    | _ => none

/-- Spec-side truncation: a positive limit truncates after limit records. -/
def truncateRecords (limit : Int) (l : List User) : List User :=
  if limit > 0 then l.take limit.toNat else l

/-- Remove the first line that is non-blank after trimming, keeping the
blank lines before it. -/
def dropFirstNonBlank : List Str → List Str
  | [] => []
  | l :: rest => if trim l = [] then l :: dropFirstNonBlank rest else rest

/-- The lines the loader parses records from: the header skip discards the
first non-blank line. -/
def effLines (skipHeader : Bool) (lines : List Str) : List Str :=
  if skipHeader then dropFirstNonBlank lines else lines

/- ------------------------------------------------------------------ -/
/- Helper lemmas: ResultWriter                                         -/
/- ------------------------------------------------------------------ -/

lemma write_fst_enabled (oracle : Nat → Bool) (rw : ResultWriter) (a : Str) :
    ((ResultWriter.write oracle rw a).1).enabled = rw.enabled := by
  unfold ResultWriter.write
  split <;> rfl

lemma writeAll_disabled (oracle : Nat → Bool) :
    ∀ (accounts : List Str) (rw : ResultWriter), rw.enabled = false →
      writeAll oracle rw accounts = (rw, List.replicate accounts.length true) := by
  intro accounts
  induction accounts with
  | nil => intro rw _; rfl
  | cons a rest ih =>
    intro rw h
    simp only [writeAll, ResultWriter.write, h, Bool.false_eq_true, if_false]
    rw [ih rw h]
    simp [List.replicate]

lemma writeAll_enabled_count (oracle : Nat → Bool) :
    ∀ (accounts : List Str) (rw : ResultWriter), rw.enabled = true →
      ((writeAll oracle rw accounts).2.all (fun b => b) = true) →
      (writeAll oracle rw accounts).1.count = rw.count + accounts.length := by
  intro accounts
  induction accounts with
  | nil => intro rw _ _; simp [writeAll]
  | cons a rest ih =>
    intro rw hen hall
    simp only [writeAll, List.all_cons, Bool.and_eq_true] at hall ⊢
    have hok : (ResultWriter.write oracle rw a).2 = true := hall.1
    have hrec := ih (ResultWriter.write oracle rw a).1
      (by rw [write_fst_enabled]; exact hen) hall.2
    rw [hrec]
    have hcnt : ((ResultWriter.write oracle rw a).1).count = rw.count + 1 := by
      unfold ResultWriter.write at hok ⊢
      simp only [hen, if_true] at hok ⊢
      rw [hok]
      simp
    rw [hcnt]
    simp [List.length_cons]
    omega

/- ------------------------------------------------------------------ -/
/- Claims C7 and C9: the Result Sink counter                           -/
/- ------------------------------------------------------------------ -/

/-- Claim C9: a ResultWriter constructed with a nil writer returns a nil
error from every Write without writing anything, and its Count stays 0
regardless of how many accounts are passed to Write. -/
theorem c9_nil_writer_noop (oracle : Nat → Bool) (accounts : List Str) :
    writeAll oracle (NewResultWriter false) accounts
      = (NewResultWriter false, List.replicate accounts.length true)
    ∧ (writeAll oracle (NewResultWriter false) accounts).1.Count = 0 := by
  have h := writeAll_disabled oracle accounts (NewResultWriter false) rfl
  exact ⟨h, by rw [h]; rfl⟩

/-- Claim C7, counterexample: the ResultWriter built from a nil writer has
every Write return success, yet after one account its Count is not 1:
the counter does not equal the number of Findings passed to Write. -/
theorem c7_counterexample :
    ((writeAll (fun _ => true) (NewResultWriter false) [['a']]).2.all (fun b => b) = true)
    ∧ ¬((writeAll (fun _ => true) (NewResultWriter false) [['a']]).1.Count
        = [['a']].length) := by
  decide

/-- Claim C7, amended: for every ResultWriter constructed with a non-nil
writer, if no Write call ever returns an error then Count equals the
number of accounts passed to Write. -/
theorem c7_enabled_count (oracle : Nat → Bool) (accounts : List Str)
    (h : (writeAll oracle (NewResultWriter true) accounts).2.all (fun b => b) = true) :
    (writeAll oracle (NewResultWriter true) accounts).1.Count = accounts.length := by
  have := writeAll_enabled_count oracle accounts (NewResultWriter true) rfl h
  unfold ResultWriter.Count
  rw [this]
  simp [NewResultWriter]

/-- Witness for c7_enabled_count at a concrete input. -/
theorem c7_enabled_count_witness :
    ((writeAll (fun _ => true) (NewResultWriter true) [['a'], ['b']]).2.all
        (fun b => b) = true)
    ∧ (writeAll (fun _ => true) (NewResultWriter true) [['a'], ['b']]).1.Count
        = [['a'], ['b']].length :=
  ⟨by decide, c7_enabled_count (fun _ => true) [['a'], ['b']] (by decide)⟩

/- ------------------------------------------------------------------ -/
/- Helper lemmas: the credential loader                                -/
/- ------------------------------------------------------------------ -/

lemma loadLoop_cons (d : Str) (s : Bool) (lim : Int) (l : Str) (rest : List Str)
    (firstLine : Bool) (acc : List User) :
    loadLoop d s lim (l :: rest) firstLine acc
      = if trim l = [] then loadLoop d s lim rest firstLine acc
        else if firstLine && s then loadLoop d s lim rest false acc
        else
          match goSplitN2 d (trim l) with
          | [a, h] =>
            if lim > 0 ∧ (((acc ++ [(⟨a, h⟩ : User)]).length : Int)) ≥ lim then
              acc ++ [(⟨a, h⟩ : User)]
            else loadLoop d s lim rest false (acc ++ [(⟨a, h⟩ : User)])
          | _ => loadLoop d s lim rest false acc := rfl

lemma loadLoop_cons_false (d : Str) (s : Bool) (lim : Int) (l : Str) (rest : List Str)
    (acc : List User) :
    loadLoop d s lim (l :: rest) false acc
      = match parseRecordLine d l with
        | some u =>
          if lim > 0 ∧ (((acc ++ [u]).length : Int)) ≥ lim then acc ++ [u]
          else loadLoop d s lim rest false (acc ++ [u])
        | none => loadLoop d s lim rest false acc := by
  rw [loadLoop_cons]
  simp only [Bool.false_and, Bool.false_eq_true, if_false]
  by_cases hb : trim l = []
  · simp [hb, parseRecordLine]
  · rcases hsp : goSplitN2 d (trim l) with _ | ⟨a, _ | ⟨h, _ | ⟨c, tl⟩⟩⟩ <;>
      simp [hb, parseRecordLine, hsp]

lemma loadLoop_skip_irrel (d : Str) (lim : Int) (s s' : Bool) :
    ∀ (lines : List Str) (acc : List User),
      loadLoop d s lim lines false acc = loadLoop d s' lim lines false acc := by
  intro lines
  induction lines with
  | nil => intro acc; rfl
  | cons l rest ih =>
    intro acc
    rw [loadLoop_cons_false, loadLoop_cons_false]
    cases hp : parseRecordLine d l with
    | none => exact ih acc
    | some u =>
      simp only []
      split
      · rfl
      · exact ih _

lemma loadLoop_nolimit (d : Str) (s : Bool) (lim : Int) (hlim : ¬lim > 0) :
    ∀ (lines : List Str) (acc : List User),
      loadLoop d s lim lines false acc
        = acc ++ lines.filterMap (parseRecordLine d) := by
  intro lines
  induction lines with
  | nil => intro acc; simp [loadLoop]
  | cons l rest ih =>
    intro acc
    rw [loadLoop_cons_false]
    cases hp : parseRecordLine d l with
    | none => rw [ih acc]; simp [List.filterMap_cons, hp]
    | some u =>
      simp only [hlim, false_and, if_false]
      rw [ih (acc ++ [u])]
      simp [List.filterMap_cons, hp]

lemma loadLoop_limit (d : Str) (s : Bool) (lim : Int) (hlim : lim > 0) :
    ∀ (lines : List Str) (acc : List User), (acc.length : Int) < lim →
      loadLoop d s lim lines false acc
        = acc ++ (lines.filterMap (parseRecordLine d)).take (lim.toNat - acc.length) := by
  intro lines
  induction lines with
  | nil => intro acc _; simp [loadLoop]
  | cons l rest ih =>
    intro acc hacc
    rw [loadLoop_cons_false]
    cases hp : parseRecordLine d l with
    | none => rw [ih acc hacc]; simp [List.filterMap_cons, hp]
    | some u =>
      simp only [List.filterMap_cons, hp]
      by_cases hstop : (((acc ++ [u]).length : Int)) ≥ lim
      · simp only [hlim, hstop, and_self, if_true, true_and]
        have h1 : lim.toNat - acc.length = 1 := by
          simp only [List.length_append, List.length_cons, List.length_nil,
            Nat.cast_add, Nat.cast_one] at hstop
          omega
        rw [h1]
        simp [List.take_succ_cons]
      · simp only [hlim, hstop, and_false, if_false, true_and]
        have hlt : (((acc ++ [u]).length : Int)) < lim := by omega
        rw [ih (acc ++ [u]) hlt]
        have h2 : lim.toNat - acc.length = (lim.toNat - (acc ++ [u]).length) + 1 := by
          simp only [List.length_append, List.length_cons, List.length_nil,
            Nat.cast_add, Nat.cast_one] at hstop ⊢
          omega
        rw [h2]
        simp [List.take_succ_cons]

lemma loadLoop_header (d : Str) (lim : Int) :
    ∀ (lines : List Str) (acc : List User),
      loadLoop d true lim lines true acc
        = loadLoop d true lim (dropFirstNonBlank lines) false acc := by
  intro lines
  induction lines with
  | nil => intro acc; rfl
  | cons l rest ih =>
    intro acc
    by_cases hb : trim l = []
    · rw [loadLoop_cons]
      simp only [hb, if_true]
      rw [ih acc]
      simp only [dropFirstNonBlank, hb, if_true]
      rw [loadLoop_cons_false]
      simp [parseRecordLine, hb]
    · rw [loadLoop_cons]
      simp only [hb, if_false, Bool.true_and, if_true]
      simp only [dropFirstNonBlank, hb, if_false]

lemma loadLoop_noskip_first (d : Str) (lim : Int) :
    ∀ (lines : List Str) (acc : List User),
      loadLoop d false lim lines true acc = loadLoop d false lim lines false acc := by
  intro lines
  induction lines with
  | nil => intro acc; rfl
  | cons l rest ih =>
    intro acc
    rw [loadLoop_cons, loadLoop_cons_false]
    by_cases hb : trim l = []
    · simp only [hb, if_true]
      rw [ih acc]
      simp [parseRecordLine, hb]
    · simp only [hb, if_false, Bool.and_false, Bool.false_eq_true, if_false]
      by_cases hp : trim l = []
      · exact absurd hp hb
      · rcases hsp : goSplitN2 d (trim l) with _ | ⟨a, _ | ⟨h, _ | ⟨c, tl⟩⟩⟩ <;>
          simp [parseRecordLine, hb, hsp]

lemma loadLoop_spec (d : Str) (s : Bool) (lim : Int) (lines : List Str) :
    loadLoop d s lim lines false []
      = truncateRecords lim (lines.filterMap (parseRecordLine d)) := by
  by_cases hlim : lim > 0
  · rw [loadLoop_limit d s lim hlim lines [] (by simpa using hlim)]
    simp [truncateRecords, hlim]
  · rw [loadLoop_nolimit d s lim hlim lines []]
    simp [truncateRecords, hlim]

/- ------------------------------------------------------------------ -/
/- Claims C8 and C10: the credential loader                            -/
/- ------------------------------------------------------------------ -/

/-- Claim C8: loadUsers fails exactly when the source fails; otherwise the
records are the well-formed lines (blank-after-trim and wrong-part-count
lines skipped without error) of the effective line list, truncated after
limit records when limit is positive and untruncated when limit is 0. -/
theorem c8_loadUsers_spec (d : Str) (lim : Int) :
    (∀ (skip : Bool) (e : String), loadUsers (.error e) d skip lim = .error e)
    ∧ (∀ (skip : Bool) (lines : List Str),
        loadUsers (.ok lines) d skip lim
          = .ok (truncateRecords lim ((effLines skip lines).filterMap (parseRecordLine d)))) := by
  constructor
  · intro skip e; rfl
  · intro skip lines
    cases skip with
    | false =>
      have he : effLines false lines = lines := rfl
      simp only [loadUsers, he]
      rw [loadLoop_noskip_first, loadLoop_spec]
    | true =>
      have he : effLines true lines = dropFirstNonBlank lines := rfl
      simp only [loadUsers, he]
      rw [loadLoop_header, loadLoop_spec]

/-- Claim C10: with skipFirstLine set, loadUsers behaves exactly as the
no-skip loader on the lines with the first non-blank-after-trim line
removed; blank lines before the header do not consume the skip; and the
records (hence the limit) count only well-formed lines. -/
theorem c10_header_skip (d : Str) (lim : Int) :
    (∀ (lines : List Str),
        loadUsers (.ok lines) d true lim
          = loadUsers (.ok (dropFirstNonBlank lines)) d false lim)
    ∧ (∀ (pre : List Str) (l : Str) (rest : List Str),
        (∀ b ∈ pre, trim b = []) → trim l ≠ [] →
          dropFirstNonBlank (pre ++ l :: rest) = pre ++ rest)
    ∧ (∀ (lines : List Str),
        loadUsers (.ok lines) d true lim
          = .ok (truncateRecords lim
              ((dropFirstNonBlank lines).filterMap (parseRecordLine d)))) := by
  refine ⟨?_, ?_, ?_⟩
  · intro lines
    simp only [loadUsers]
    rw [loadLoop_header, loadLoop_noskip_first, loadLoop_skip_irrel d lim true false]
  · intro pre
    induction pre with
    | nil =>
      intro l rest _ hl
      simp [dropFirstNonBlank, hl]
    | cons b bs ih =>
      intro l rest hpre hl
      have hb : trim b = [] := hpre b (by simp)
      simp only [List.cons_append, dropFirstNonBlank, hb, if_true, List.append_eq]
      rw [ih l rest (fun x hx => hpre x (by simp [hx])) hl]
  · intro lines
    simp only [loadUsers]
    rw [loadLoop_header, loadLoop_spec]

/-- Witness for c10_header_skip: two blank lines do not consume the header
skip; the third line does. -/
theorem c10_header_skip_witness :
    dropFirstNonBlank [[' '], [], ['h', ':', '1'], ['a', ':', '2']]
      = [[' '], [], ['a', ':', '2']] :=
  (c10_header_skip [':'] 0).2.1 [[' '], []] ['h', ':', '1'] [['a', ':', '2']]
    (by decide) (by decide)

/- ------------------------------------------------------------------ -/
/- Helper lemmas: the matching engine                                  -/
/- ------------------------------------------------------------------ -/

lemma foldl_fixed {α β : Type} (f : β → α → β) (l : List α) (b : β)
    (h : ∀ a ∈ l, ∀ s, f s a = s) : List.foldl f b l = b := by
  induction l generalizing b with
  | nil => rfl
  | cons a rest ih =>
    rw [List.foldl_cons, h a (by simp), ih]
    intro x hx s
    exact h x (by simp [hx]) s

lemma foldl_filterMap {α β γ : Type} (g : α → Option γ) (f : β → γ → β) :
    ∀ (l : List α) (b : β),
      List.foldl f b (l.filterMap g)
        = List.foldl (fun s x => (g x).elim s (f s)) b l := by
  intro l
  induction l with
  | nil => intro b; rfl
  | cons a rest ih =>
    intro b
    rw [List.filterMap_cons]
    cases hg : g a with
    | none => rw [ih]; simp [hg]
    | some y => rw [List.foldl_cons, ih]; simp [hg]

lemma markAccounts_invariant (oracle : Nat → Bool) :
    ∀ (accs : List Str) (st : EngineState),
      (∃ t, (markAccounts oracle accs st).exposed = st.exposed ++ t
        ∧ (markAccounts oracle accs st).findings = st.findings ++ t
        ∧ ∀ a ∈ t, a ∈ accs)
      ∧ (st.exposed.Nodup → (markAccounts oracle accs st).exposed.Nodup) := by
  intro accs
  induction accs with
  | nil => intro st; exact ⟨⟨[], by simp [markAccounts]⟩, fun h => h⟩
  | cons a rest ih =>
    intro st
    by_cases hc : st.exposed.contains a
    · have hstep : markAccounts oracle (a :: rest) st = markAccounts oracle rest st := by
        simp only [markAccounts, List.foldl_cons]
        rw [if_pos hc]
      rw [hstep]
      rcases ih st with ⟨⟨t, he, hf, ht⟩, hnd⟩
      exact ⟨⟨t, he, hf, fun x hx => List.mem_cons_of_mem a (ht x hx)⟩, hnd⟩
    · have hstep : markAccounts oracle (a :: rest) st
          = markAccounts oracle rest
              { exposed := st.exposed ++ [a]
                findings := st.findings ++ [a]
                sink := (ResultWriter.write oracle st.sink a).1 } := by
        simp only [markAccounts, List.foldl_cons]
        rw [if_neg hc]
      rw [hstep]
      rcases ih { exposed := st.exposed ++ [a]
                  findings := st.findings ++ [a]
                  sink := (ResultWriter.write oracle st.sink a).1 } with ⟨⟨t, he, hf, ht⟩, hnd⟩
      refine ⟨⟨a :: t, ?_, ?_, ?_⟩, ?_⟩
      · rw [he]; simp
      · rw [hf]; simp
      · intro x hx
        rcases List.mem_cons.mp hx with hx | hx
        · exact hx ▸ List.mem_cons_self a rest
        · exact List.mem_cons_of_mem a (ht x hx)
      · intro hstnd
        apply hnd
        simp only [List.nodup_append, List.nodup_cons, List.nodup_nil]
        refine ⟨hstnd, by simp, ?_⟩
        intro x hx hmem
        rcases List.mem_cons.mp hmem with hmem | hmem
        · subst hmem
          exact hc (List.elem_eq_true_of_mem hx)
        · cases hmem

lemma processLine_invariant (oracle : Nat → Bool) (idx : Str → List Str)
    (pfx line : Str) (st : EngineState) :
    (∃ t, (processLine oracle idx pfx line st).exposed = st.exposed ++ t
      ∧ (processLine oracle idx pfx line st).findings = st.findings ++ t
      ∧ ∀ a ∈ t, ∃ hh, a ∈ idx hh)
    ∧ (st.exposed.Nodup → (processLine oracle idx pfx line st).exposed.Nodup) := by
  unfold processLine
  by_cases hb : trim line = []
  · simp only [hb, if_true]
    exact ⟨⟨[], by simp⟩, fun h => h⟩
  · simp only [hb, if_false]
    rcases hsp : goSplitN2 [':'] (trim line) with _ | ⟨sfx, _ | ⟨cnt, _ | ⟨c, tl⟩⟩⟩
    · exact ⟨⟨[], by simp⟩, fun h => h⟩
    · exact ⟨⟨[], by simp⟩, fun h => h⟩
    · simp only []
      by_cases hempty : (idx (pfx ++ toUpper sfx)).isEmpty
      · simp only [hempty, if_true]
        exact ⟨⟨[], by simp⟩, fun h => h⟩
      · simp only [hempty, if_false]
        rcases markAccounts_invariant oracle (idx (pfx ++ toUpper sfx)) st
          with ⟨⟨t, he, hf, ht⟩, hnd⟩
        exact ⟨⟨t, he, hf, fun a ha => ⟨pfx ++ toUpper sfx, ht a ha⟩⟩, hnd⟩
    · exact ⟨⟨[], by simp⟩, fun h => h⟩

lemma runOps_invariant (oracle : Nat → Bool) (idx : Str → List Str) :
    ∀ (ops : List (Str × Str)) (st : EngineState),
      (∃ t, (runOps oracle idx ops st).exposed = st.exposed ++ t
        ∧ (runOps oracle idx ops st).findings = st.findings ++ t
        ∧ ∀ a ∈ t, ∃ hh, a ∈ idx hh)
      ∧ (st.exposed.Nodup → (runOps oracle idx ops st).exposed.Nodup) := by
  intro ops
  induction ops with
  | nil => intro st; exact ⟨⟨[], by simp [runOps]⟩, fun h => h⟩
  | cons op rest ih =>
    intro st
    have hstep : runOps oracle idx (op :: rest) st
        = runOps oracle idx rest (processLine oracle idx op.1 op.2 st) := rfl
    rw [hstep]
    rcases processLine_invariant oracle idx op.1 op.2 st with ⟨⟨t1, he1, hf1, ht1⟩, hnd1⟩
    rcases ih (processLine oracle idx op.1 op.2 st) with ⟨⟨t2, he2, hf2, ht2⟩, hnd2⟩
    refine ⟨⟨t1 ++ t2, ?_, ?_, ?_⟩, fun h => hnd2 (hnd1 h)⟩
    · rw [he2, he1, List.append_assoc]
    · rw [hf2, hf1, List.append_assoc]
    · intro a ha
      rcases List.mem_append.mp ha with ha | ha
      · exact ht1 a ha
      · exact ht2 a ha

lemma runOps_append (oracle : Nat → Bool) (idx : Str → List Str)
    (ops1 ops2 : List (Str × Str)) (st : EngineState) :
    runOps oracle idx (ops1 ++ ops2) st = runOps oracle idx ops2 (runOps oracle idx ops1 st) := by
  simp [runOps, List.foldl_append]

/- ------------------------------------------------------------------ -/
/- Claim C1: at-most-once exposure and monotonicity                    -/
/- ------------------------------------------------------------------ -/

/-- Claim C1: over any run (any sequence of per-line operations, hence any
worker interleaving at the granularity of the mutex-protected check-and-set),
an account is marked exposed at most once (the exposure set is
duplicate-free), the Findings emitted coincide with the exposure set
(exactly one Finding per exposed account, never a second), processing
further operations only extends the exposure set (monotonic, never unset),
and a prefix's successful response is exactly such a sequence. -/
theorem c1_exactly_once (oracle : Nat → Bool) (idx : Str → List Str)
    (rw : ResultWriter) (ops extra : List (Str × Str)) :
    ((runOps oracle idx ops (initEngine rw)).exposed.Nodup)
    ∧ ((runOps oracle idx ops (initEngine rw)).findings
        = (runOps oracle idx ops (initEngine rw)).exposed)
    ∧ (∃ t, (runOps oracle idx (ops ++ extra) (initEngine rw)).exposed
        = (runOps oracle idx ops (initEngine rw)).exposed ++ t)
    ∧ (∀ (pfx body : Str) (st : EngineState),
        checkPrefixMatches oracle idx pfx (.ok body) st
          = runOps oracle idx ((splitLines body).map (fun l => (pfx, l))) st) := by
  rcases runOps_invariant oracle idx ops (initEngine rw) with ⟨⟨t, he, hf, _⟩, hnd⟩
  refine ⟨hnd (by simp [initEngine]), ?_, ?_, ?_⟩
  · rw [he, hf]
    simp [initEngine]
  · rw [runOps_append]
    rcases runOps_invariant oracle idx extra (runOps oracle idx ops (initEngine rw))
      with ⟨⟨t2, he2, _, _⟩, _⟩
    exact ⟨t2, he2⟩
  · intro pfx body st
    simp [checkPrefixMatches, runOps, List.foldl_map]

/- ------------------------------------------------------------------ -/
/- Claim C2: response processing of the matching engine                -/
/- ------------------------------------------------------------------ -/

lemma processLine_eq_parse (oracle : Nat → Bool) (idx : Str → List Str)
    (pfx line : Str) (st : EngineState) :
    processLine oracle idx pfx line st
      = match parseRespLine line with
        | none => st
        | some sfx =>
          if (idx (pfx ++ toUpper sfx)).isEmpty then st
          else markAccounts oracle (idx (pfx ++ toUpper sfx)) st := by
  unfold processLine parseRespLine
  by_cases hb : trim line = []
  · simp [hb]
  · simp only [hb, if_false]
    rcases hsp : goSplitN2 [':'] (trim line) with _ | ⟨sfx, _ | ⟨cnt, _ | ⟨c, tl⟩⟩⟩ <;> simp

/-- Claim C2: on a successful query, the engine state is exactly the fold,
over the suffixes of the response's non-blank well-formed lines (split on
the first colon; other lines silently skipped), of marking the accounts of
prefix plus uppercased suffix whenever that full hash is a key of the
index; and a response matching zero local hashes leaves the state
unchanged (no Findings, no error). -/
theorem c2_response_processing (oracle : Nat → Bool) (idx : Str → List Str)
    (pfx body : Str) (st : EngineState) :
    (checkPrefixMatches oracle idx pfx (.ok body) st
      = (respSuffixes body).foldl
          (fun s sfx =>
            if (idx (pfx ++ toUpper sfx)).isEmpty then s
            else markAccounts oracle (idx (pfx ++ toUpper sfx)) s) st)
    ∧ ((∀ sfx ∈ respSuffixes body, idx (pfx ++ toUpper sfx) = []) →
        checkPrefixMatches oracle idx pfx (.ok body) st = st) := by
  have hmain : checkPrefixMatches oracle idx pfx (.ok body) st
      = (respSuffixes body).foldl
          (fun s sfx =>
            if (idx (pfx ++ toUpper sfx)).isEmpty then s
            else markAccounts oracle (idx (pfx ++ toUpper sfx)) s) st := by
    show (splitLines body).foldl (fun s l => processLine oracle idx pfx l s) st = _
    rw [respSuffixes, foldl_filterMap]
    have hfun : (fun (s : EngineState) (l : Str) => processLine oracle idx pfx l s)
        = fun (s : EngineState) (l : Str) =>
            (parseRespLine l).elim s (fun sfx =>
              if (idx (pfx ++ toUpper sfx)).isEmpty then s
              else markAccounts oracle (idx (pfx ++ toUpper sfx)) s) := by
      funext s l
      rw [processLine_eq_parse]
      cases parseRespLine l <;> rfl
    rw [hfun]
  refine ⟨hmain, ?_⟩
  intro hmiss
  rw [hmain]
  apply foldl_fixed
  intro sfx hsfx s
  simp [hmiss sfx hsfx]

/-- Witness for c2_response_processing: an index with no entries leaves the
state unchanged on a response with one well-formed line. -/
theorem c2_response_processing_witness :
    checkPrefixMatches (fun _ => true) (fun _ => []) ['A', 'B', 'C', '1', '2']
        (.ok ['1', 'F', ':', '3']) (initEngine (NewResultWriter true))
      = initEngine (NewResultWriter true) :=
  (c2_response_processing (fun _ => true) (fun _ => []) ['A', 'B', 'C', '1', '2']
      ['1', 'F', ':', '3'] (initEngine (NewResultWriter true))).2
    (by intro sfx _; rfl)

/- ------------------------------------------------------------------ -/
/- Claim C6: CheckFile error semantics                                 -/
/- ------------------------------------------------------------------ -/

lemma markAccounts_exposed_rel (oracle oracle' : Nat → Bool) :
    ∀ (accs : List Str) (st st' : EngineState), st.exposed = st'.exposed →
      (markAccounts oracle accs st).exposed = (markAccounts oracle' accs st').exposed := by
  intro accs
  induction accs with
  | nil => intro st st' h; exact h
  | cons a rest ih =>
    intro st st' h
    by_cases hc : st.exposed.contains a
    · have hc' : st'.exposed.contains a := by rw [← h]; exact hc
      have h1 : markAccounts oracle (a :: rest) st = markAccounts oracle rest st := by
        simp only [markAccounts, List.foldl_cons]
        rw [if_pos hc]
      have h2 : markAccounts oracle' (a :: rest) st' = markAccounts oracle' rest st' := by
        simp only [markAccounts, List.foldl_cons]
        rw [if_pos hc']
      rw [h1, h2]
      exact ih st st' h
    · have hc' : ¬st'.exposed.contains a := by rw [← h]; exact hc
      have h1 : markAccounts oracle (a :: rest) st
          = markAccounts oracle rest
              { exposed := st.exposed ++ [a]
                findings := st.findings ++ [a]
                sink := (ResultWriter.write oracle st.sink a).1 } := by
        simp only [markAccounts, List.foldl_cons]
        rw [if_neg hc]
      have h2 : markAccounts oracle' (a :: rest) st'
          = markAccounts oracle' rest
              { exposed := st'.exposed ++ [a]
                findings := st'.findings ++ [a]
                sink := (ResultWriter.write oracle' st'.sink a).1 } := by
        simp only [markAccounts, List.foldl_cons]
        rw [if_neg hc']
      rw [h1, h2]
      exact ih _ _ (by simp [h])

lemma processLine_exposed_rel (oracle oracle' : Nat → Bool) (idx : Str → List Str)
    (pfx line : Str) (st st' : EngineState) (h : st.exposed = st'.exposed) :
    (processLine oracle idx pfx line st).exposed
      = (processLine oracle' idx pfx line st').exposed := by
  rw [processLine_eq_parse, processLine_eq_parse]
  cases hp : parseRespLine line with
  | none => exact h
  | some sfx =>
    simp only []
    by_cases hempty : (idx (pfx ++ toUpper sfx)).isEmpty
    · simp only [hempty, if_true]; exact h
    · simp only [hempty, if_false]
      exact markAccounts_exposed_rel oracle oracle' _ st st' h

lemma runOps_exposed_rel (oracle oracle' : Nat → Bool) (idx : Str → List Str) :
    ∀ (ops : List (Str × Str)) (st st' : EngineState), st.exposed = st'.exposed →
      (runOps oracle idx ops st).exposed = (runOps oracle' idx ops st').exposed := by
  intro ops
  induction ops with
  | nil => intro st st' h; exact h
  | cons op rest ih =>
    intro st st' h
    exact ih _ _ (processLine_exposed_rel oracle oracle' idx op.1 op.2 st st' h)

/-- Claim C6: CheckFile returns an error exactly when the input source
fails; with a readable source it always returns the final exposed-account
count with no error, whatever the per-prefix query outcomes; a transport
error for one prefix leaves the engine state of that step unchanged (the
prefix is abandoned, no retry, other prefixes unaffected); and the
evolution of the in-memory exposure set is independent of the result sink
and of every write outcome. -/
theorem c6_error_semantics (oracle : Nat → Bool) (d : Str) (skip : Bool) (w : Nat)
    (lim : Int) (responses : Str → Except String Str) (rw : ResultWriter) :
    (∀ e, CheckFile oracle (.error e) d skip w lim responses rw = .error e)
    ∧ (∀ lines, ∃ st, CheckFile oracle (.ok lines) d skip w lim responses rw
        = .ok (st.exposed.length, st))
    ∧ (∀ (idx : Str → List Str) (pfx : Str) (e : String) (st : EngineState),
        checkPrefixMatches oracle idx pfx (.error e) st = st)
    ∧ (∀ (oracle' : Nat → Bool) (idx : Str → List Str) (ops : List (Str × Str))
        (ex f f' : List Str) (rw1 rw2 : ResultWriter),
        (runOps oracle idx ops ⟨ex, f, rw1⟩).exposed
          = (runOps oracle' idx ops ⟨ex, f', rw2⟩).exposed) := by
  refine ⟨?_, ?_, ?_, ?_⟩
  · intro e; rfl
  · intro lines
    exact ⟨_, rfl⟩
  · intro idx pfx e st; rfl
  · intro oracle' idx ops ex f f' rw1 rw2
    exact runOps_exposed_rel oracle oracle' idx ops _ _ rfl

/- ------------------------------------------------------------------ -/
/- Helper lemmas: the hash index builder                               -/
/- ------------------------------------------------------------------ -/

lemma buildStep_of_excluded (st : IndexState) (u : User) (h : isExcluded u = true) :
    buildStep st u = st := by
  by_cases h1 : (['$'].isSuffixOf u.account || trim u.hash == []) = true
  · unfold buildStep
    rw [if_pos h1]
  · unfold buildStep
    rw [if_neg h1]
    have h1f : (['$'].isSuffixOf u.account || trim u.hash == []) = false :=
      Bool.eq_false_iff.mpr (fun hc => h1 hc)
    have hC : (toUpper u.hash).length < 5 := by
      unfold isExcluded at h
      rw [h1f] at h
      simpa using h
    simp only [if_pos hC]

lemma isExcluded_false_parts (u : User) (h : isExcluded u = false) :
    (['$'].isSuffixOf u.account || trim u.hash == []) = false
    ∧ ¬(toUpper u.hash).length < 5 := by
  unfold isExcluded at h
  rw [Bool.or_eq_false_iff] at h
  exact ⟨h.1, by simpa using h.2⟩

lemma buildStep_userHashes (st : IndexState) (u : User) (h : isExcluded u = false) :
    (buildStep st u).userHashes
      = fun hh => if hh = toUpper u.hash then st.userHashes hh ++ [u.account]
                  else st.userHashes hh := by
  rcases isExcluded_false_parts u h with ⟨h1, h2⟩
  have h1' : ¬(['$'].isSuffixOf u.account || trim u.hash == []) = true := by
    rw [h1]; simp
  unfold buildStep
  rw [if_neg h1', if_neg h2]
  by_cases hs : st.seen ((toUpper u.hash).take 5) = true
  · rw [if_pos hs]
  · rw [if_neg hs]

lemma buildStep_seen_prefixes_old (st : IndexState) (u : User) (h : isExcluded u = false)
    (hs : st.seen ((toUpper u.hash).take 5) = true) :
    (buildStep st u).prefixes = st.prefixes ∧ (buildStep st u).seen = st.seen := by
  rcases isExcluded_false_parts u h with ⟨h1, h2⟩
  have h1' : ¬(['$'].isSuffixOf u.account || trim u.hash == []) = true := by
    rw [h1]; simp
  unfold buildStep
  rw [if_neg h1', if_neg h2, if_pos hs]
  exact ⟨rfl, rfl⟩

lemma buildStep_seen_prefixes_new (st : IndexState) (u : User) (h : isExcluded u = false)
    (hs : ¬st.seen ((toUpper u.hash).take 5) = true) :
    (buildStep st u).prefixes = st.prefixes ++ [(toUpper u.hash).take 5]
    ∧ (buildStep st u).seen
        = fun p => if p = (toUpper u.hash).take 5 then true else st.seen p := by
  rcases isExcluded_false_parts u h with ⟨h1, h2⟩
  have h1' : ¬(['$'].isSuffixOf u.account || trim u.hash == []) = true := by
    rw [h1]; simp
  unfold buildStep
  rw [if_neg h1', if_neg h2, if_neg hs]
  exact ⟨rfl, rfl⟩

lemma buildFold_userHashes (h : Str) :
    ∀ (users : List User) (st : IndexState),
      (users.foldl buildStep st).userHashes h
        = st.userHashes h
          ++ (users.filter (fun u => !isExcluded u && (toUpper u.hash == h))).map User.account := by
  intro users
  induction users with
  | nil => intro st; simp
  | cons u rest ih =>
    intro st
    rw [List.foldl_cons]
    cases hex : isExcluded u with
    | true =>
      rw [buildStep_of_excluded st u hex, ih st]
      simp [List.filter_cons, hex]
    | false =>
      rw [ih (buildStep st u)]
      rw [buildStep_userHashes st u hex]
      by_cases hh : h = toUpper u.hash
      · have hbeq : (toUpper u.hash == h) = true := by simp [hh]
        simp only [List.filter_cons, hex, Bool.not_false, Bool.true_and, hbeq, if_pos hh,
          List.map_cons, List.append_assoc, List.singleton_append]
        rfl
      · have hbeq : (toUpper u.hash == h) = false := by
          simp only [beq_eq_false_iff_ne, ne_eq]
          exact fun hc => hh hc.symm
        simp only [List.filter_cons, hex, Bool.not_false, Bool.true_and, hbeq, if_neg hh]
        simp

lemma buildFold_prefixes :
    ∀ (users : List User) (st : IndexState),
      (∀ q, st.seen q = true ↔ q ∈ st.prefixes) → st.prefixes.Nodup →
      ((users.foldl buildStep st).prefixes.Nodup
        ∧ (∀ q, (users.foldl buildStep st).seen q = true
            ↔ q ∈ (users.foldl buildStep st).prefixes)
        ∧ ∀ p, (p ∈ (users.foldl buildStep st).prefixes
            ↔ p ∈ st.prefixes
              ∨ ∃ u, u ∈ users ∧ isExcluded u = false ∧ (toUpper u.hash).take 5 = p)) := by
  intro users
  induction users with
  | nil =>
    intro st hinv hnd
    refine ⟨hnd, hinv, ?_⟩
    intro p
    simp
  | cons u rest ih =>
    intro st hinv hnd
    rw [List.foldl_cons]
    cases hex : isExcluded u with
    | true =>
      rw [buildStep_of_excluded st u hex]
      rcases ih st hinv hnd with ⟨ihnd, ihinv, ihmem⟩
      refine ⟨ihnd, ihinv, ?_⟩
      intro p
      rw [ihmem p]
      constructor
      · rintro (hp | ⟨x, hx, hxe, hxp⟩)
        · exact Or.inl hp
        · exact Or.inr ⟨x, List.mem_cons_of_mem u hx, hxe, hxp⟩
      · rintro (hp | ⟨x, hx, hxe, hxp⟩)
        · exact Or.inl hp
        · rcases List.mem_cons.mp hx with hx | hx
          · subst hx
            rw [hex] at hxe
            cases hxe
          · exact Or.inr ⟨x, hx, hxe, hxp⟩
    | false =>
      by_cases hs : st.seen ((toUpper u.hash).take 5) = true
      · rcases buildStep_seen_prefixes_old st u hex hs with ⟨hp, hsn⟩
        have hinv' : ∀ q, (buildStep st u).seen q = true ↔ q ∈ (buildStep st u).prefixes := by
          intro q; rw [hp, hsn]; exact hinv q
        have hnd' : (buildStep st u).prefixes.Nodup := by rw [hp]; exact hnd
        rcases ih (buildStep st u) hinv' hnd' with ⟨ihnd, ihinv, ihmem⟩
        refine ⟨ihnd, ihinv, ?_⟩
        intro p
        rw [ihmem p, hp]
        have hpin : (toUpper u.hash).take 5 ∈ st.prefixes := (hinv _).mp hs
        constructor
        · rintro (hp1 | ⟨x, hx, hxe, hxp⟩)
          · exact Or.inl hp1
          · exact Or.inr ⟨x, List.mem_cons_of_mem u hx, hxe, hxp⟩
        · rintro (hp1 | ⟨x, hx, hxe, hxp⟩)
          · exact Or.inl hp1
          · rcases List.mem_cons.mp hx with hx | hx
            · subst hx
              exact Or.inl (hxp ▸ hpin)
            · exact Or.inr ⟨x, hx, hxe, hxp⟩
      · rcases buildStep_seen_prefixes_new st u hex hs with ⟨hp, hsn⟩
        have hpnot : (toUpper u.hash).take 5 ∉ st.prefixes := fun hc => hs ((hinv _).mpr hc)
        have hinv' : ∀ q, (buildStep st u).seen q = true ↔ q ∈ (buildStep st u).prefixes := by
          intro q
          rw [hp, hsn]
          by_cases hq : q = (toUpper u.hash).take 5
          · subst hq
            simp
          · simp only [if_neg hq, List.mem_append, List.mem_singleton, hq, or_false]
            exact hinv q
        have hnd' : (buildStep st u).prefixes.Nodup := by
          rw [hp]
          simp only [List.nodup_append, List.nodup_cons, List.nodup_nil]
          refine ⟨hnd, by simp, ?_⟩
          intro x hx hmem
          rcases List.mem_cons.mp hmem with hmem | hmem
          · subst hmem; exact hpnot hx
          · cases hmem
        rcases ih (buildStep st u) hinv' hnd' with ⟨ihnd, ihinv, ihmem⟩
        refine ⟨ihnd, ihinv, ?_⟩
        intro p
        rw [ihmem p, hp]
        constructor
        · rintro (hp1 | ⟨x, hx, hxe, hxp⟩)
          · rcases List.mem_append.mp hp1 with hp1 | hp1
            · exact Or.inl hp1
            · refine Or.inr ⟨u, List.mem_cons_self u rest, hex, ?_⟩
              rw [List.mem_singleton] at hp1
              exact hp1.symm
          · exact Or.inr ⟨x, List.mem_cons_of_mem u hx, hxe, hxp⟩
        · rintro (hp1 | ⟨x, hx, hxe, hxp⟩)
          · exact Or.inl (List.mem_append.mpr (Or.inl hp1))
          · rcases List.mem_cons.mp hx with hx | hx
            · subst hx
              exact Or.inl (List.mem_append.mpr (Or.inr (by simp [hxp])))
            · exact Or.inr ⟨x, hx, hxe, hxp⟩

/- ------------------------------------------------------------------ -/
/- Claims C3 and C4: the prefix set and the filtering                  -/
/- ------------------------------------------------------------------ -/

/-- Claim C3: the prefix list of buildHashIndex is duplicate-free and
holds exactly the distinct first-5-character values of the indexed
normalized hashes: a prefix is present iff some non-excluded record's
uppercased hash begins with it, and no prefix appears twice however many
accounts share it, so the query loop issues exactly one query per distinct
prefix. -/
theorem c3_prefix_set (users : List User) :
    (buildHashIndex users).prefixes.Nodup
    ∧ ∀ p, (p ∈ (buildHashIndex users).prefixes
        ↔ ∃ u, u ∈ users ∧ isExcluded u = false ∧ (toUpper u.hash).take 5 = p) := by
  have hinv : ∀ q, emptyIndex.seen q = true ↔ q ∈ emptyIndex.prefixes := by
    intro q; simp [emptyIndex]
  have hnd : emptyIndex.prefixes.Nodup := by simp [emptyIndex]
  rcases buildFold_prefixes users emptyIndex hinv hnd with ⟨h1, _, h3⟩
  refine ⟨h1, ?_⟩
  intro p
  rw [buildHashIndex, h3 p]
  simp [emptyIndex]

/-- Claim C4: buildHashIndex drops a record exactly when its account ends
with the machine-account marker, its hash trims to empty, or its
normalized hash is shorter than 5; every other record's account is
appended under its uppercased hash preserving multiplicity; and hence
only accounts of non-excluded records can ever enter the exposure set. -/
theorem c4_filtering (users : List User) :
    (∀ h, (buildHashIndex users).userHashes h
        = (users.filter (fun u => !isExcluded u && (toUpper u.hash == h))).map User.account)
    ∧ (∀ (oracle : Nat → Bool) (rw : ResultWriter) (ops : List (Str × Str)) (a : Str),
        a ∈ (runOps oracle (buildHashIndex users).userHashes ops (initEngine rw)).exposed →
        ∃ u, u ∈ users ∧ isExcluded u = false ∧ u.account = a) := by
  have hchar : ∀ h, (buildHashIndex users).userHashes h
      = (users.filter (fun u => !isExcluded u && (toUpper u.hash == h))).map User.account := by
    intro h
    rw [buildHashIndex, buildFold_userHashes h users emptyIndex]
    simp [emptyIndex]
  refine ⟨hchar, ?_⟩
  intro oracle rw ops a ha
  rcases runOps_invariant oracle (buildHashIndex users).userHashes ops (initEngine rw)
    with ⟨⟨t, he, _, ht⟩, _⟩
  rw [he] at ha
  simp only [initEngine, List.nil_append] at ha
  rcases ht a ha with ⟨hh, hmem⟩
  rw [hchar hh] at hmem
  rcases List.mem_map.mp hmem with ⟨u, hu, hacc⟩
  rcases List.mem_filter.mp hu with ⟨huin, hpred⟩
  simp only [Bool.and_eq_true, Bool.not_eq_true'] at hpred
  exact ⟨u, huin, hpred.1, hacc⟩

/-- Witness for c4_filtering: a run exposing one account yields a
non-excluded source record with that account name. -/
theorem c4_filtering_witness :
    (['a', 'l'] ∈ (runOps (fun _ => true)
        (buildHashIndex [⟨['a', 'l'], ['a', 'b', 'c', '1', '2']⟩]).userHashes
        [(['A', 'B', 'C', '1', '2'], [':', '7'])]
        (initEngine (NewResultWriter true))).exposed)
    ∧ ∃ u, u ∈ [(⟨['a', 'l'], ['a', 'b', 'c', '1', '2']⟩ : User)]
        ∧ isExcluded u = false ∧ u.account = ['a', 'l'] :=
  ⟨by decide,
   (c4_filtering [⟨['a', 'l'], ['a', 'b', 'c', '1', '2']⟩]).2 (fun _ => true)
     (NewResultWriter true) [(['A', 'B', 'C', '1', '2'], [':', '7'])] ['a', 'l']
     (by decide)⟩

/- ------------------------------------------------------------------ -/
/- Helper lemmas: case normalization                                   -/
/- ------------------------------------------------------------------ -/

lemma toNat_ofNat_valid (n : Nat) (h : n.isValidChar) : (Char.ofNat n).toNat = n := by
  simp [Char.ofNat, Char.ofNatAux, h, Char.toNat, UInt32.toNat, BitVec.toNat_ofNatLt]

lemma toNat_upChar (c : Char) :
    (upChar c).toNat = if 97 ≤ c.toNat ∧ c.toNat ≤ 122 then c.toNat - 32 else c.toNat := by
  by_cases h : 97 ≤ c.toNat ∧ c.toNat ≤ 122
  · rw [if_pos h]
    unfold upChar
    rw [if_pos h]
    exact toNat_ofNat_valid _ (Or.inl (by omega))
  · rw [if_neg h]
    unfold upChar
    rw [if_neg h]

lemma isSpaceChar_upChar (c : Char) : isSpaceChar (upChar c) = isSpaceChar c := by
  by_cases h : 97 ≤ c.toNat ∧ c.toNat ≤ 122
  · have hup : (upChar c).toNat = c.toNat - 32 := by rw [toNat_upChar, if_pos h]
    have hL : isSpaceChar (upChar c) = false := by
      simp only [isSpaceChar, hup, Bool.or_eq_false_iff, decide_eq_false_iff_not]
      omega
    have hR : isSpaceChar c = false := by
      simp only [isSpaceChar, Bool.or_eq_false_iff, decide_eq_false_iff_not]
      omega
    rw [hL, hR]
  · have hup : upChar c = c := by unfold upChar; rw [if_neg h]
    rw [hup]

lemma trim_toUpper (s : Str) : trim (toUpper s) = toUpper (trim s) := by
  have hfun : isSpaceChar ∘ upChar = isSpaceChar := funext fun c => isSpaceChar_upChar c
  unfold trim toUpper
  rw [List.dropWhile_map, hfun, ← List.map_reverse, List.dropWhile_map, hfun,
    ← List.map_reverse]

lemma trim_nil_iff (s : Str) : trim s = [] ↔ trim (toUpper s) = [] := by
  rw [trim_toUpper]
  constructor
  · intro h; rw [h]; rfl
  · intro h; exact List.map_eq_nil_iff.mp h

lemma buildStep_congr (st : IndexState) (u u' : User) (ha : u.account = u'.account)
    (hh : toUpper u.hash = toUpper u'.hash) : buildStep st u = buildStep st u' := by
  have htr : (trim u.hash == ([] : Str)) = (trim u'.hash == ([] : Str)) := by
    by_cases ht : trim u.hash = []
    · have ht2 : trim (toUpper u'.hash) = [] := by
        rw [← hh]
        exact (trim_nil_iff u.hash).mp ht
      have ht' : trim u'.hash = [] := (trim_nil_iff u'.hash).mpr ht2
      simp [ht, ht']
    · have ht' : ¬trim u'.hash = [] := by
        intro hc
        apply ht
        apply (trim_nil_iff u.hash).mpr
        rw [hh]
        exact (trim_nil_iff u'.hash).mp hc
      simp [List.isEmpty_eq_false.mpr ht, List.isEmpty_eq_false.mpr ht']
  unfold buildStep
  rw [ha, htr, hh]

lemma buildFold_congr :
    ∀ (users users' : List User),
      users.map (fun u => (u.account, toUpper u.hash))
        = users'.map (fun u => (u.account, toUpper u.hash)) →
      ∀ st, users.foldl buildStep st = users'.foldl buildStep st := by
  intro users
  induction users with
  | nil =>
    intro users' hmap st
    cases users' with
    | nil => rfl
    | cons v vs => simp at hmap
  | cons u us ih =>
    intro users' hmap st
    cases users' with
    | nil => simp at hmap
    | cons v vs =>
      simp only [List.map_cons, List.cons.injEq, Prod.mk.injEq] at hmap
      rw [List.foldl_cons, List.foldl_cons, buildStep_congr st u v hmap.1.1 hmap.1.2]
      exact ih vs hmap.2 _

lemma buildHashIndex_congr (users users' : List User)
    (hmap : users.map (fun u => (u.account, toUpper u.hash))
      = users'.map (fun u => (u.account, toUpper u.hash))) :
    buildHashIndex users = buildHashIndex users' :=
  buildFold_congr users users' hmap emptyIndex

/- ------------------------------------------------------------------ -/
/- Claim C5: case-insensitive matching                                 -/
/- ------------------------------------------------------------------ -/

/-- Claim C5: whether an account is found under a looked-up full hash is
unchanged by changing the letter case of any local hash (records equal up
to hash case build identical indexes) or of the remote-reported suffix
(only its uppercase enters the lookup key for the same prefix). -/
theorem c5_case_insensitive (users users' : List User)
    (hmap : users.map (fun u => (u.account, toUpper u.hash))
      = users'.map (fun u => (u.account, toUpper u.hash)))
    (pfx sfx sfx' a : Str) (hs : toUpper sfx = toUpper sfx') :
    (a ∈ (buildHashIndex users).userHashes (pfx ++ toUpper sfx)
      ↔ a ∈ (buildHashIndex users').userHashes (pfx ++ toUpper sfx')) := by
  rw [buildHashIndex_congr users users' hmap, hs]

/-- Witness for c5_case_insensitive: a lowercase local hash and an
uppercase remote suffix still match. -/
theorem c5_case_insensitive_witness :
    (([⟨['a', 'l'], ['a', 'b', 'c', '1', '2', 'f']⟩] : List User).map
        (fun u => (u.account, toUpper u.hash))
      = ([⟨['a', 'l'], ['A', 'B', 'C', '1', '2', 'F']⟩] : List User).map
        (fun u => (u.account, toUpper u.hash)))
    ∧ toUpper ['f'] = toUpper ['F']
    ∧ (['a', 'l'] ∈ (buildHashIndex [⟨['a', 'l'], ['a', 'b', 'c', '1', '2', 'f']⟩]).userHashes
          (['A', 'B', 'C', '1', '2'] ++ toUpper ['f'])
        ↔ ['a', 'l'] ∈ (buildHashIndex [⟨['a', 'l'], ['A', 'B', 'C', '1', '2', 'F']⟩]).userHashes
          (['A', 'B', 'C', '1', '2'] ++ toUpper ['F'])) :=
  ⟨by decide, by decide,
   c5_case_insensitive [⟨['a', 'l'], ['a', 'b', 'c', '1', '2', 'f']⟩]
     [⟨['a', 'l'], ['A', 'B', 'C', '1', '2', 'F']⟩] (by decide)
     ['A', 'B', 'C', '1', '2'] ['f'] ['F'] ['a', 'l'] (by decide)⟩

end HibpChecker
